import Mathlib

/-!
Verification of the TodoReview scan engine (src/TodoReview.py and its two
near-duplicate variants src/plugin/TodoReview.py and
src/plugin/sublime_text/TodoReview.py).

Paths, notes and tags are modelled as lists of characters.  The regular
expressions that the engine builds are fixed template strings combined with
user configuration; their observable matching behaviour is embedded as
executable Lean functions, as documented on each definition.
-/

/-- Strings of the embedded program: lists of characters. -/
abbrev Str := List Char

/-- Conversion helper for writing concrete embedded strings. -/
def str (s : String) : Str := s.data

/-- All suffixes of a list, longest first (including the list itself and []). -/
def sufs : Str → List Str
  | [] => [[]]
  | c :: t => (c :: t) :: sufs t

/-- All prefixes of a list, obtained as takes of every length. -/
def prefs (t : Str) : List Str :=
  (List.range (t.length + 1)).map (fun n => t.take n)

theorem mem_sufs (x t : Str) : x ∈ sufs t ↔ ∃ u, u ++ x = t := by
  induction t with
  | nil =>
    simp only [sufs, List.mem_singleton]
    constructor
    · rintro rfl; exact ⟨[], rfl⟩
    · rintro ⟨u, hu⟩
      rcases List.append_eq_nil.mp hu with ⟨_, h⟩
      exact h
  | cons c t ih =>
    simp only [sufs, List.mem_cons, ih]
    constructor
    · rintro (rfl | ⟨u, rfl⟩)
      · exact ⟨[], rfl⟩
      · exact ⟨c :: u, rfl⟩
    · rintro ⟨u, hu⟩
      cases u with
      | nil => left; simpa using hu
      | cons d u =>
        right
        refine ⟨u, ?_⟩
        have := hu
        simp only [List.cons_append, List.cons.injEq] at this
        exact this.2

theorem mem_prefs (x t : Str) : x ∈ prefs t ↔ ∃ w, x ++ w = t := by
  simp only [prefs, List.mem_map, List.mem_range]
  constructor
  · rintro ⟨n, _, rfl⟩
    exact ⟨t.drop n, List.take_append_drop n t⟩
  · rintro ⟨w, rfl⟩
    refine ⟨x.length, ?_, ?_⟩
    · simp [Nat.lt_succ_iff]
    · simp

/-- Separator-tolerant character match.  `fn_to_regex` rewrites every `/` in
the translated pattern into the character class `[\\/]`, so a literal `/` in
a glob matches either a forward slash or a backslash in the path; every other
literal character matches only itself.  (Models a `case_sensitive = true`
scan; the claims settled here do not depend on letter case.) -/
def pCharMatch (p c : Char) : Bool :=
  if p = '/' then c = '/' || c = '\\' else p = c

/-- Embedding of the matching behaviour of the regex produced by
`fn_to_regex` (that is, `fnmatch.translate` with `\Z` stripped and `/`
replaced by `[\\/]`) against a whole candidate string: `*` becomes `(?s:.*)`
and matches ANY character sequence, directory separators included; `?`
becomes `(?s:.)` and matches any single character; every other character is
escaped by `translate` and matches literally (with `/` separator-tolerant).
Character classes `[...]` are not modelled; `[` is treated as a literal, and
every theorem quantifying over patterns is applied to class-free globs only. -/
def globMatchCore : Str → Str → Bool
  | [], ts => ts.isEmpty
  | p :: ps, ts =>
    if p = '*' then (sufs ts).any (fun t => globMatchCore ps t)
    else
      match ts with
      | [] => false
      | t :: ts' => (if p = '?' then true else pCharMatch p t) && globMatchCore ps ts'

/-- Embedding of `re.compile(fn_to_regex(g)).search(t)`: since
`fn_to_regex` strips the trailing `\Z` produced by `fnmatch.translate` and
the engine calls `search`, the compiled pattern accepts `t` iff the
translated glob matches some contiguous substring of `t` (a prefix of some
suffix). -/
def globSearch (g t : Str) : Bool :=
  (sufs t).any (fun s => (prefs s).any (fun pre => globMatchCore g pre))

/-- Embedding of `re.compile(merge_regexes([fn_to_regex(p) for p in globs])).search`,
i.e. the compiled `exclude_files` / `exclude_folders` matcher of
`Engine.__init__`.  For a nonempty glob list the merged pattern is the
alternation `(?:r1)|...|(?:rN)` and a search succeeds iff some branch has a
matching substring.  For the EMPTY glob list `merge_regexes` returns `"(?:)"`
(top-level variant) or `""` (plugin variants); both compile to a pattern that
matches the empty string at position 0 of any input, so `search` succeeds on
every string. -/
def excludeSearch (globs : List Str) (path : Str) : Bool :=
  if globs.isEmpty then true else globs.any (fun g => globSearch g path)

/-- Source `merge_regexes` of src/TodoReview.py:
`"(?:" + ")|(?:".join(regexes) + ")"`. -/
def merge_regexes (regexes : List String) : String :=
  "(?:" ++ String.intercalate ")|(?:" regexes ++ ")"

/-- Source `merge_regexes` of the plugin variants: same joined string, but
the degenerate result `"(?:)"` is replaced by the empty string. -/
def merge_regexes_plugin (regexes : List String) : String :=
  let merged := "(?:" ++ String.intercalate ")|(?:" regexes ++ ")"
  if merged = "(?:)" then "" else merged

/-- Python `re.search` semantics, modelled: searching with a pattern whose
language is `L` succeeds on `t` iff some contiguous substring of `t`
(a prefix of some suffix) is in `L`. -/
def reSearch (L : Str → Bool) (t : Str) : Bool :=
  (sufs t).any (fun s => (prefs s).any L)

/-- Modelled from Python `re` semantics: the pattern `"(?:)"` produced by
`merge_regexes []` (and likewise the empty pattern `""` produced by the
plugin variants) denotes exactly the empty string. -/
def emptyPatternLang : Str → Bool := fun v => v.isEmpty

theorem reSearch_empty_lang (t : Str) : reSearch emptyPatternLang t = true := by
  cases t with
  | nil => rfl
  | cons c t =>
    simp only [reSearch, List.any_eq_true]
    refine ⟨c :: t, ?_, [], ?_, rfl⟩
    · simp [sufs]
    · simp [prefs, List.mem_map]

theorem globSearch_iff (g t : Str) :
    globSearch g t = true ↔ ∃ u v w, u ++ v ++ w = t ∧ globMatchCore g v = true := by
  simp only [globSearch, List.any_eq_true]
  constructor
  · rintro ⟨s, hs, pre, hpre, hcore⟩
    rcases (mem_sufs s t).mp hs with ⟨u, rfl⟩
    rcases (mem_prefs pre s).mp hpre with ⟨w, rfl⟩
    exact ⟨u, pre, w, by simp, hcore⟩
  · rintro ⟨u, v, w, rfl, hcore⟩
    refine ⟨v ++ w, (mem_sufs _ _).mpr ⟨u, by simp⟩, v, (mem_prefs _ _).mpr ⟨w, rfl⟩, hcore⟩

theorem globSearch_append (g t ext : Str) (h : globSearch g t = true) :
    globSearch g (t ++ ext) = true := by
  rcases (globSearch_iff g t).mp h with ⟨u, v, w, rfl, hcore⟩
  exact (globSearch_iff g _).mpr ⟨u, v, w ++ ext, by simp, hcore⟩

/-- The compiled exclude matcher is monotone under extending the input on the
right: a match found inside a string is still found inside any extension of
it (the translated patterns carry no anchors, and the empty glob list yields
an always-true matcher). -/
theorem excludeSearch_mono (gs : List Str) (s ext : Str)
    (h : excludeSearch gs s = true) : excludeSearch gs (s ++ ext) = true := by
  unfold excludeSearch at h ⊢
  split at h
  · simp [*]
  · rename_i hne
    simp only [if_neg hne, List.any_eq_true] at h ⊢
    rcases h with ⟨g, hg, hsearch⟩
    exact ⟨g, hg, globSearch_append g s ext hsearch⟩

/-- Rewrite a `/`-separated path into its `\`-separated form. -/
def sepSwap (t : Str) : Str := t.map (fun c => if c = '/' then '\\' else c)

theorem sufs_map (f : Char → Char) (t : Str) :
    sufs (t.map f) = (sufs t).map (List.map f) := by
  induction t with
  | nil => rfl
  | cons c t ih => simp [sufs, ih]

theorem prefs_map (f : Char → Char) (t : Str) :
    prefs (t.map f) = (prefs t).map (List.map f) := by
  simp only [prefs, List.length_map, List.map_map]
  exact List.map_congr_left (fun n _ => (List.map_take f t n).symm)

theorem any_congr {α : Type} {l : List α} {f g : α → Bool}
    (h : ∀ a ∈ l, f a = g a) : l.any f = l.any g := by
  induction l with
  | nil => rfl
  | cons x l ih =>
    simp only [List.any_cons, h x (List.mem_cons_self x l)]
    rw [ih (fun a ha => h a (List.mem_cons_of_mem x ha))]

theorem globMatchCore_sepSwap (g : Str) (hb : '\\' ∉ g) (v : Str) :
    globMatchCore g (sepSwap v) = globMatchCore g v := by
  induction g generalizing v with
  | nil => cases v <;> simp [globMatchCore, sepSwap]
  | cons p ps ih =>
    have hpb : p ≠ '\\' := fun h => hb (h ▸ List.mem_cons_self p ps)
    have hb' : '\\' ∉ ps := fun h => hb (List.mem_cons_of_mem p h)
    by_cases hstar : p = '*'
    · subst hstar
      simp only [globMatchCore, if_pos rfl, sepSwap, sufs_map, List.any_map]
      exact any_congr (fun s _ => ih hb' s)
    · cases v with
      | nil => simp [globMatchCore, sepSwap, hstar]
      | cons c v' =>
        simp only [globMatchCore, if_neg hstar, sepSwap, List.map_cons]
        have hrec := ih hb' v'
        simp only [sepSwap] at hrec
        by_cases hq : p = '?'
        · simp [hq, hrec]
        · simp only [if_neg hq]
          have hchar : pCharMatch p (if c = '/' then '\\' else c) = pCharMatch p c := by
            unfold pCharMatch
            by_cases hp : p = '/'
            · subst hp
              by_cases hc : c = '/' <;> simp [hc]
            · simp only [if_neg hp]
              by_cases hc : c = '/'
              · subst hc
                simp only [if_pos rfl]
                have h1 : (p = '\\') = False := by simp [hpb]
                have h2 : (p = '/') = False := by simp [hp]
                simp [h1, h2]
              · simp [hc]
          rw [hchar, hrec]

/-- A pattern containing no literal backslash cannot tell a `/`-separated
path from the same path written with `\` separators: the `search` result is
identical on both forms. -/
theorem globSearch_sepSwap (g : Str) (hb : '\\' ∉ g) (t : Str) :
    globSearch g (sepSwap t) = globSearch g t := by
  simp only [globSearch, sepSwap, sufs_map, List.any_map]
  refine any_congr (fun s _ => ?_)
  simp only [Function.comp, prefs_map, List.any_map]
  refine any_congr (fun pre _ => ?_)
  have := globMatchCore_sepSwap g hb pre
  simpa [sepSwap] using this

/-- A directory separator character (either platform). -/
def isSep (c : Char) : Bool := c = '/' || c = '\\'

/-- Suffixes of a path reachable by consuming only non-separator characters
from the front (used to keep `*` from crossing a separator). -/
def nonSepSufs : Str → List Str
  | [] => [[]]
  | c :: t => (c :: t) :: (if isSep c then [] else nonSepSufs t)

/-- Follows the spec's words, for comparison with the source embedding:
"standard filesystem glob semantics": the pattern must match the WHOLE path,
`*` matches a run of characters that does not cross a directory separator,
`?` matches a single non-separator character, a literal `/` matches either
separator form (so the two separator spellings are treated alike), and every
other character matches itself.  (Character classes are outside the modelled
glob subset.) -/
def specGlobMatch : Str → Str → Bool
  | [], ts => ts.isEmpty
  | p :: ps, ts =>
    if p = '*' then (nonSepSufs ts).any (fun t => specGlobMatch ps t)
    else
      match ts with
      | [] => false
      | t :: ts' =>
        (if p = '?' then !(isSep t) else if p = '/' then isSep t else p = t)
          && specGlobMatch ps ts'

/-- `os.sep` of the modelled (POSIX) platform. -/
def osSep : Char := '/'

/-- `os.path.join(dirp, filename)` for a relative filename component. -/
def pathJoin (a b : Str) : Str := a ++ osSep :: b

mutual

/-- A directory of the scanned filesystem: its regular files (by name is not
needed, we store the names only) and its subdirectories. -/
inductive FSTree : Type where
  | node (files : List Str) (subs : FSubs)

/-- The subdirectories of a directory: a list of (name, subtree) pairs. -/
inductive FSubs : Type where
  | nil : FSubs
  | cons (name : Str) (t : FSTree) (rest : FSubs) : FSubs

end

mutual

/-- Embedding of `os.walk(dirpath, followlinks=True)` as consumed by
`Engine.files`: a top-down traversal yielding every directory of the tree
with its regular files.  The source never edits the `dirnames` list inside
the loop, so nothing is ever pruned from the walk itself; the walk always
descends into every subdirectory. -/
def osWalk (p : Str) : FSTree → List (Str × List Str)
  | .node files subs => (p, files) :: osWalkSubs p subs

/-- Walk of a subdirectory list (helper of `osWalk`). -/
def osWalkSubs (p : Str) : FSubs → List (Str × List Str)
  | .nil => []
  | .cons name t rest => osWalk (pathJoin p name) t ++ osWalkSubs p rest

end

/-- The compiled state of `Engine.__init__` that `Engine.files` consumes:
the two exclude matchers (each a compiled `search` over the merged glob
regexes, e.g. `excludeSearch globs`) and the path resolver
(`os.path.realpath(os.path.expanduser(os.path.abspath(...)))`, or the same
without `realpath` when `resolve_symlinks` is false). -/
structure Engine where
  exclude_folders : Str → Bool
  exclude_files : Str → Bool
  resolve : Str → Str

/-- Python set insertion (`self.filepaths.add(...)`), modelled with a
deterministic first-insertion order. -/
def setInsert (pool : List Str) (x : Str) : List Str :=
  if x ∈ pool then pool else pool ++ [x]

/-- The walk phase of `Engine.files`: for every directory yielded by
`os.walk`, if the exclude-folder matcher matches the directory path with a
trailing separator appended, skip the files of THAT directory (the loop
executes `continue`); otherwise add every file of the directory to the
candidate pool. -/
def collectWalk (e : Engine) (walkOut : List (Str × List Str)) (pool : List Str) : List Str :=
  walkOut.foldl
    (fun pool entry =>
      if e.exclude_folders (entry.1 ++ [osSep]) then pool
      else entry.2.foldl (fun pool fn => setInsert pool (pathJoin entry.1 fn)) pool)
    pool

/-- The filtering pass of `Engine.files`: resolve each candidate, skip it if
already seen, skip it if the exclude-folder matcher matches the full path,
skip it if the exclude-file matcher matches, otherwise record it as seen and
yield it. -/
def Engine.filesLoop (e : Engine) (seen : List Str) : List Str → List Str
  | [] => []
  | fp :: rest =>
    if e.resolve fp ∈ seen then e.filesLoop seen rest
    else if e.exclude_folders (e.resolve fp) then e.filesLoop seen rest
    else if e.exclude_files (e.resolve fp) then e.filesLoop seen rest
    else e.resolve fp :: e.filesLoop (e.resolve fp :: seen) rest

/-- Embedding of `Engine.files`: the candidate pool starts as the set of
explicit file paths, each walked root adds the files of its non-matching
directories, and the filtering pass produces the yielded sequence. -/
def Engine.files (e : Engine) (roots : List (Str × FSTree)) (filepaths : List Str) : List Str :=
  e.filesLoop []
    (roots.foldl
      (fun pool root => collectWalk e (osWalk (e.resolve root.1) root.2) pool)
      (filepaths.foldl setInsert []))

theorem filesLoop_not_excluded (e : Engine) (l : List Str) :
    ∀ seen, ∀ p ∈ e.filesLoop seen l,
      e.exclude_folders p = false ∧ e.exclude_files p = false := by
  induction l with
  | nil => intro seen p hp; simp [Engine.filesLoop] at hp
  | cons fp rest ih =>
    intro seen p hp
    simp only [Engine.filesLoop] at hp
    split_ifs at hp with h1 h2 h3
    · exact ih seen p hp
    · exact ih seen p hp
    · exact ih seen p hp
    · rcases List.mem_cons.mp hp with rfl | hmem
      · exact ⟨Bool.not_eq_true _ ▸ by simpa using h2, by simpa using h3⟩
      · exact ih _ p hmem

theorem filesLoop_nodup (e : Engine) (l : List Str) :
    ∀ seen, (e.filesLoop seen l).Nodup ∧ ∀ x ∈ e.filesLoop seen l, x ∉ seen := by
  induction l with
  | nil => intro seen; simp [Engine.filesLoop]
  | cons fp rest ih =>
    intro seen
    simp only [Engine.filesLoop]
    split_ifs with h1 h2 h3
    · exact ih seen
    · exact ih seen
    · exact ih seen
    · refine ⟨?_, ?_⟩
      · refine List.nodup_cons.mpr ⟨?_, (ih _).1⟩
        intro hmem
        exact (ih (e.resolve fp :: seen)).2 _ hmem (List.mem_cons_self _ _)
      · intro x hx
        rcases List.mem_cons.mp hx with rfl | hmem
        · exact h1
        · intro hxseen
          exact (ih (e.resolve fp :: seen)).2 x hmem (List.mem_cons_of_mem _ hxseen)

theorem filesLoop_mem (e : Engine) (l : List Str) :
    ∀ seen, ∀ x ∈ l,
      e.exclude_folders (e.resolve x) = false → e.exclude_files (e.resolve x) = false →
      e.resolve x ∈ seen ∨ e.resolve x ∈ e.filesLoop seen l := by
  induction l with
  | nil => intro seen x hx; simp at hx
  | cons fp rest ih =>
    intro seen x hx hf1 hf2
    rcases List.mem_cons.mp hx with rfl | hmem
    · simp only [Engine.filesLoop]
      split_ifs with h1 h2 h3
      · exact Or.inl h1
      · rw [hf1] at h2; exact absurd h2 (by simp)
      · rw [hf2] at h3; exact absurd h3 (by simp)
      · exact Or.inr (List.mem_cons_self _ _)
    · simp only [Engine.filesLoop]
      split_ifs with h1 h2 h3
      · exact ih seen x hmem hf1 hf2
      · exact ih seen x hmem hf1 hf2
      · exact ih seen x hmem hf1 hf2
      · rcases ih (e.resolve fp :: seen) x hmem hf1 hf2 with hseen | hloop
        · rcases List.mem_cons.mp hseen with heq | hseen'
          · exact Or.inr (heq ▸ List.mem_cons_self _ _)
          · exact Or.inl hseen'
        · exact Or.inr (List.mem_cons_of_mem _ hloop)

theorem mem_foldl_pres {β : Type} (f : List Str → β → List Str)
    (hf : ∀ acc b x, x ∈ acc → x ∈ f acc b) :
    ∀ (l : List β) (acc : List Str) (x : Str), x ∈ acc → x ∈ l.foldl f acc := by
  intro l
  induction l with
  | nil => intro acc x hx; simpa using hx
  | cons b l ih => intro acc x hx; exact ih (f acc b) x (hf acc b x hx)

theorem mem_setInsert_self (pool : List Str) (x : Str) : x ∈ setInsert pool x := by
  unfold setInsert
  split_ifs with h
  · exact h
  · simp

theorem mem_setInsert_of_mem (pool : List Str) (x y : Str) (h : y ∈ pool) :
    y ∈ setInsert pool x := by
  unfold setInsert
  split_ifs
  · exact h
  · exact List.mem_append_left _ h

theorem mem_foldl_setInsert (l : List Str) :
    ∀ (acc : List Str) (x : Str), x ∈ l → x ∈ l.foldl setInsert acc := by
  induction l with
  | nil => intro acc x hx; simp at hx
  | cons y l ih =>
    intro acc x hx
    rcases List.mem_cons.mp hx with rfl | hmem
    · exact mem_foldl_pres setInsert (fun a b z => mem_setInsert_of_mem a b z)
        l (setInsert acc x) x (mem_setInsert_self acc x)
    · exact ih (setInsert acc y) x hmem

theorem mem_collectWalk_of_mem (e : Engine) (w : List (Str × List Str))
    (pool : List Str) (x : Str) (h : x ∈ pool) : x ∈ collectWalk e w pool := by
  unfold collectWalk
  refine mem_foldl_pres _ ?_ w pool x h
  intro acc entry y hy
  dsimp only
  split_ifs
  · exact hy
  · exact mem_foldl_pres _ (fun a b z => mem_setInsert_of_mem a _ z) entry.2 acc y hy

theorem count_eq_one_of_nodup_mem {l : List Str} {a : Str}
    (hnd : l.Nodup) (ha : a ∈ l) : l.count a = 1 := by
  induction l with
  | nil => simp at ha
  | cons b l ih =>
    rcases List.mem_cons.mp ha with rfl | hmem
    · have hz : l.count a = 0 := by
        rw [List.count_eq_zero]
        exact (List.nodup_cons.mp hnd).1
      simp [List.count_cons, hz]
    · have hb : b ≠ a := by
        rintro rfl
        exact (List.nodup_cons.mp hnd).1 hmem
      rw [List.count_cons, ih (List.nodup_cons.mp hnd).2 hmem]
      simp [hb]

theorem isPrefixOf_iff_exists (u v : Str) :
    u.isPrefixOf v = true ↔ ∃ w, u ++ w = v := by
  induction u generalizing v with
  | nil => simp [List.isPrefixOf]
  | cons a as ih =>
    cases v with
    | nil => simp [List.isPrefixOf]
    | cons b bs =>
      simp only [List.isPrefixOf, Bool.and_eq_true, beq_iff_eq, ih,
        List.cons_append, List.cons.injEq]
      constructor
      · rintro ⟨rfl, w, rfl⟩; exact ⟨w, rfl, rfl⟩
      · rintro ⟨w, rfl, hw⟩; exact ⟨rfl, w, hw⟩

/-- Example filesystem: a root `/r` whose subdirectory `x` has a
subdirectory `y` holding the file `f`. -/
def exTreeDeep : FSTree :=
  .node [] (.cons (str "x")
    (.node [] (.cons (str "y") (.node [str "f"] .nil) .nil)) .nil)

/-- Example filesystem: a root `/r` holding the file `f` and a subdirectory
`x` holding the file `g`. -/
def exTreeFlat : FSTree :=
  .node [str "f"] (.cons (str "x") (.node [str "g"] .nil) .nil)

/-- Example engine state: exclude-folder glob list `["x"]`, exclude-file
glob list `["zz"]`, and an identity resolver (absolute canonical inputs,
no symlinks, no user shorthand). -/
def exEngine : Engine :=
  ⟨excludeSearch [str "x"], excludeSearch [str "zz"], id⟩

/-- C1, counterexample: the walk is NOT pruned at an excluded folder.  The
exclude-folder matcher matches `/r/x` with a trailing separator appended,
yet `os.walk` — whose `dirnames` list the source never edits — still
descends beneath it and visits `/r/x/y`, so "the subtree is pruned entirely
during traversal (no descent)" is false of the code; the loop merely skips
the file collection of each matching level. -/
theorem c1_counterexample :
    excludeSearch [str "x"] (str "/r/x" ++ [osSep]) = true
      ∧ str "/r/x/y" ∈ (osWalk (str "/r") exTreeDeep).map Prod.fst := by
  constructor
  · decide
  · decide

/-- C1 (amended): for every folder path matched by the exclude-folder
matcher, no file beneath that folder appears in the enumerated output — not
because the walk is pruned (it is not; it still descends), but because the
matcher is an unanchored substring search, hence monotone under path
extension: it also matches every descendant directory (so no file beneath is
collected) and matches the full path of any candidate file beneath the
folder (so the filtering pass drops it, including files supplied via the
explicit file list). -/
theorem c1_excluded_folder_subtree (e : Engine) (roots : List (Str × FSTree))
    (filepaths : List Str)
    (hmono : ∀ s ext, e.exclude_folders s = true → e.exclude_folders (s ++ ext) = true)
    (D : Str) (hD : e.exclude_folders (D ++ [osSep]) = true) :
    ∀ p ∈ e.files roots filepaths, (D ++ [osSep]).isPrefixOf p = false := by
  intro p hp
  by_contra h
  have hpre : (D ++ [osSep]).isPrefixOf p = true := by
    cases hh : (D ++ [osSep]).isPrefixOf p
    · exact absurd hh h
    · rfl
  rcases (isPrefixOf_iff_exists _ _).mp hpre with ⟨w, hw⟩
  have hout := filesLoop_not_excluded e _ [] p hp
  have hexcl := hmono (D ++ [osSep]) w hD
  rw [hw, hout.1] at hexcl
  exact absurd hexcl (by simp)

/-- C1, witness: with exclude-folder glob `x` over root `/r` (which holds
`/r/f` and the excluded subtree `/r/x`), and the file `/r/x/h` supplied
explicitly, the enumerated path `/r/f` does not lie beneath `/r/x`. -/
theorem c1_witness :
    (str "/r/x" ++ [osSep]).isPrefixOf (str "/r/f") = false :=
  c1_excluded_folder_subtree exEngine [(str "/r", exTreeFlat)] [str "/r/x/h"]
    (fun s ext h => excludeSearch_mono [str "x"] s ext h)
    (str "/r/x") (by decide) (str "/r/f") (by decide)

/-- C2: the enumerated sequence of `Engine.files` never repeats a resolved
path (the `seen_paths` set guards every yield), each enumerated path occurs
exactly once, and an explicit file whose resolved path no exclude matcher
hits is enumerated (in particular a file both walked and explicit appears
exactly once). -/
theorem c2_enumeration_distinct (e : Engine) (roots : List (Str × FSTree))
    (filepaths : List Str) :
    (e.files roots filepaths).Nodup
      ∧ (∀ p, p ∈ e.files roots filepaths → (e.files roots filepaths).count p = 1)
      ∧ (∀ fp, fp ∈ filepaths →
          e.exclude_folders (e.resolve fp) = false →
          e.exclude_files (e.resolve fp) = false →
          e.resolve fp ∈ e.files roots filepaths) := by
  have hnd : (e.files roots filepaths).Nodup := (filesLoop_nodup e _ []).1
  refine ⟨hnd, fun p hp => count_eq_one_of_nodup_mem hnd hp, fun fp hfp h1 h2 => ?_⟩
  have hpool : fp ∈ roots.foldl
      (fun pool root => collectWalk e (osWalk (e.resolve root.1) root.2) pool)
      (filepaths.foldl setInsert []) := by
    refine mem_foldl_pres _ ?_ roots _ fp (mem_foldl_setInsert filepaths [] fp hfp)
    intro acc root x hx
    exact mem_collectWalk_of_mem e _ acc x hx
  rcases filesLoop_mem e _ [] fp hpool h1 h2 with hseen | hout
  · simp at hseen
  · exact hout

/-- C2, witness: `/r/f` is both reachable by walking the root `/r` and
supplied explicitly; it is enumerated exactly once and the output has no
duplicates. -/
theorem c2_witness :
    (exEngine.files [(str "/r", exTreeFlat)] [str "/r/f"]).Nodup
      ∧ (exEngine.files [(str "/r", exTreeFlat)] [str "/r/f"]).count (str "/r/f") = 1 := by
  have h := c2_enumeration_distinct exEngine [(str "/r", exTreeFlat)] [str "/r/f"]
  exact ⟨h.1, h.2.1 (str "/r/f")
    (h.2.2 (str "/r/f") (by decide) (by decide) (by decide))⟩

/-- C3, counterexample: `merge_regexes` applied to the empty list yields the
pattern `"(?:)"`, and that pattern matches the empty string at position 0 of
any input, so the compiled matcher ACCEPTS the string "a" — it is an
always-true matcher under `search`, not an always-false one. -/
theorem c3_counterexample :
    merge_regexes [] = "(?:)" ∧ reSearch emptyPatternLang (str "a") = true := by
  constructor
  · rfl
  · decide

/-- C3 (amended): merging the empty list of regex fragments never raises —
the top-level variant produces the valid pattern `"(?:)"` and the plugin
variants produce the empty pattern `""` — but the resulting compiled matcher
accepts EVERY string (both patterns match the empty substring at position 0),
not no string at all. -/
theorem c3_empty_merge_matches_everything :
    merge_regexes [] = "(?:)" ∧ merge_regexes_plugin [] = ""
      ∧ ∀ t, reSearch emptyPatternLang t = true := by
  refine ⟨rfl, by decide, reSearch_empty_lang⟩

/-- C7, counterexample: the compiled exclude matcher does not implement
standard filesystem glob semantics.  For the glob `a*b` and the path `a/b`,
the compiled matcher accepts (its `*` comes from `fnmatch.translate` and
crosses the directory separator) while standard glob semantics rejects. -/
theorem c7_counterexample :
    globSearch (str "a*b") (str "a/b") = true
      ∧ specGlobMatch (str "a*b") (str "a/b") = false := by
  constructor
  · decide
  · decide

/-- C7 (amended): the compiled exclude matcher accepts a path iff some
contiguous substring of the path matches the fnmatch-translated glob (where
`*` and `?` may cross directory separators and the match is unanchored,
since `fn_to_regex` strips `\Z` and the engine calls `search`); acceptance
is identical for the `/`-separated and `\`-separated forms of the same path
whenever the glob itself contains no literal backslash. -/
theorem c7_fnmatch_search (g t : Str) (hb : '\\' ∉ g) :
    (globSearch g t = true ↔ ∃ u v w, u ++ v ++ w = t ∧ globMatchCore g v = true)
      ∧ globSearch g (sepSwap t) = globSearch g t :=
  ⟨globSearch_iff g t, globSearch_sepSwap g hb t⟩

/-- C7, witness: the amended statement instantiated at glob `a*b` and path
`a/b`. -/
theorem c7_witness :
    (globSearch (str "a*b") (str "a/b") = true
        ↔ ∃ u v w, u ++ v ++ w = str "a/b" ∧ globMatchCore (str "a*b") v = true)
      ∧ globSearch (str "a*b") (sepSwap (str "a/b")) = globSearch (str "a*b") (str "a/b") :=
  c7_fnmatch_search (str "a*b") (str "a/b") (by decide)

/-- Per-file failures of content resolution: `IOError`/`OSError` on opening
or reading, `UnicodeDecodeError` on decoding — exactly the exception tuple
the source catches around each file. -/
inductive ScanErr : Type where
  | ioError : ScanErr
  | decodeError : ScanErr
deriving DecidableEq

/-- The result record yielded by `Engine.extract`:
`{"file": p, "patt": patt, "note": note, "line": num, "priority": priority}`. -/
structure Finding where
  file : Str
  patt : Str
  note : Str
  line : Nat
  priority : Int
deriving DecidableEq

/-- The character class `[0-9]` of the priority regex. -/
def isDigit (c : Char) : Bool := 48 ≤ c.toNat && c.toNat ≤ 57

/-- Numeric value of a digit character (`int` applied to the digits). -/
def dval (c : Char) : Int := (c.toNat : Int) - 48

/-- Match of the fixed priority regex `\(([0-9]{1,2})\)` anchored at the
start of `cs`, with the parsed integer of the captured group: the greedy
`{1,2}` first tries two digits followed by `)`, then backtracks to one digit
followed by `)`. -/
def priorityMatchAt : Str → Option Int
  | c :: a :: b :: d :: _ =>
    if c = '(' then
      if isDigit a && isDigit b && d = ')' then some (10 * dval a + dval b)
      else if isDigit a && b = ')' then some (dval a)
      else none
    else none
  | [c, a, b] =>
    if c = '(' && isDigit a && b = ')' then some (dval a)
    else none
  | _ => none

/-- Embedding of `self.priority.search(note)` where
`self.priority = re.compile(r"...")` is the fixed marker regex: the leftmost
position where the marker matches, with its parsed integer. -/
def prioritySearch : Str → Option Int
  | [] => none
  | c :: cs =>
    match priorityMatchAt (c :: cs) with
    | some n => some n
    | none => prioritySearch cs

/-- The priority assigned to a note by `Engine.extract`:
`int(priority_match.group(1))` when the marker search succeeds, `50`
otherwise. -/
def priorityVal (note : Str) : Int :=
  match prioritySearch note with
  | some n => n
  | none => 50

/-- Follows the spec's words, for comparison with the source embedding: the
priority marker `(<N>)` (N one or two digits) starting at this position, if
any — first the one-digit shape `(d)`, else the two-digit shape `(dd)`; at
a fixed position at most one of the two shapes can hold, since a digit is
never `)`. -/
def specMarkerAt : Str → Option Int
  | c :: a :: b :: rest =>
    if c = '(' && isDigit a && b = ')' then some (dval a)
    else
      match rest with
      | d :: _ =>
        if c = '(' && isDigit a && isDigit b && d = ')' then some (10 * dval a + dval b)
        else none
      | [] => none
  | _ => none

/-- Follows the spec's words: the value of the FIRST priority marker found
anywhere in the note text. -/
def specFirstPriority : Str → Option Int
  | [] => none
  | c :: cs =>
    match specMarkerAt (c :: cs) with
    | some n => some n
    | none => specFirstPriority cs

/-- Python truthiness of a named group's captured value: `None` (the group
did not participate in the match) and the empty string are falsy. -/
def pyFalsy (note : Option Str) : Bool :=
  match note with
  | none => true
  | some s => s.isEmpty

/-- Embedding of the inner loop of `Engine.extract` over
`result.groupdict().items()`: a group is skipped by
`if not note and note != "": continue` — i.e. exactly when its value is
`None` — and every other group yields one result record with the group name
as tag, the captured text as note, and the parsed (or default 50) priority. -/
def findingsOfMatch (file : Str) (num : Nat) (gd : List (Str × Option Str)) : List Finding :=
  gd.filterMap (fun pn =>
    if pyFalsy pn.2 && !(pn.2 == some []) then none
    else pn.2.map (fun note => Finding.mk file pn.1 note num (priorityVal note)))

/-- The matches of the merged tag pattern on one line
(`self.patterns.finditer(line)`), each represented by its groupdict: the
named groups in definition order, each with `none` when the group did not
participate in that match and `some text` when it captured `text` (possibly
empty).  The pattern itself is user configuration, so the match list is a
parameter of the embedding. -/
abbrev LineMatcher := Str → List (List (Str × Option Str))

/-- Findings of one line: every non-overlapping match contributes the
findings of its groupdict. -/
def findingsOfLine (file : Str) (num : Nat) (mds : List (List (Str × Option Str))) : List Finding :=
  mds.flatMap (fun gd => findingsOfMatch file num gd)

/-- Findings of a whole file, lines enumerated 1-based
(`for num, line in enumerate(lines, 1)`). -/
def extractFile (file : Str) (matcher : LineMatcher) (lines : List Str) : List Finding :=
  (List.enumFrom 1 lines).flatMap (fun nl => findingsOfLine file nl.1 (matcher nl.2))

/-- Content resolution of `Engine.extract` (plugin variants): if the path is
among the open views' file names, the FIRST matching view's live buffer
lines are used; otherwise the file is opened from disk and `readlines()` is
taken, which may fail with a read or decode error. -/
def getLines (overlay : List (Str × List Str)) (disk : Str → Except ScanErr (List Str))
    (p : Str) : Except ScanErr (List Str) :=
  match List.lookup p overlay with
  | some ls => Except.ok ls
  | none => disk p

/-- Embedding of `Engine.extract` of the plugin variants
(src/plugin/TodoReview.py and src/plugin/sublime_text/TodoReview.py): all
lines of a file are read BEFORE the per-line loop, a read/decode error makes
the whole file contribute nothing, and the `finally` block increments the
scanned-file counter once per path in every case. -/
def Engine.extract (overlay : List (Str × List Str))
    (disk : Str → Except ScanErr (List Str)) (matcher : LineMatcher) :
    List Str → List Finding × Nat
  | [] => ([], 0)
  | p :: rest =>
    let here :=
      match getLines overlay disk p with
      | Except.ok lines => extractFile p matcher lines
      | Except.error _ => []
    let r := Engine.extract overlay disk matcher rest
    (here ++ r.1, r.2 + 1)

/-- Lazy per-line reading of one disk file, as in the extract loop of the
top-level variant src/TodoReview.py: `f = io.open(p, ...)` is iterated line
by line inside the `try` block, so a decode error arriving at a later line
aborts the file AFTER the findings of the earlier lines were already
yielded. -/
def extractFileLazy (file : Str) (matcher : LineMatcher) :
    Nat → List (Except ScanErr Str) → List Finding
  | _, [] => []
  | _, Except.error _ :: _ => []
  | num, Except.ok line :: rest =>
    findingsOfLine file num (matcher line) ++ extractFileLazy file matcher (num + 1) rest

/-- Embedding of `Engine.extract` of the top-level variant
src/TodoReview.py: open-buffer paths use the view's lines; disk paths are
opened (which can fail) and then decoded lazily line by line (each line can
fail); the `finally` block increments the counter once per path. -/
def extractLazy (overlay : List (Str × List Str))
    (disk : Str → Except ScanErr (List (Except ScanErr Str))) (matcher : LineMatcher) :
    List Str → List Finding × Nat
  | [] => ([], 0)
  | p :: rest =>
    let here :=
      match List.lookup p overlay with
      | some ls => extractFile p matcher ls
      | none =>
        match disk p with
        | Except.ok stream => extractFileLazy p matcher 1 stream
        | Except.error _ => []
    let r := extractLazy overlay disk matcher rest
    (here ++ r.1, r.2 + 1)

theorem isDigit_ne_rparen {b : Char} (h : isDigit b = true) : ¬ b = ')' := by
  intro heq
  rw [heq] at h
  exact absurd h (by decide)

theorem priorityMatchAt_eq (cs : Str) : priorityMatchAt cs = specMarkerAt cs := by
  match cs with
  | [] => rfl
  | [c] => rfl
  | [c, a] => rfl
  | [c, a, b] =>
    simp only [priorityMatchAt, specMarkerAt]
  | c :: a :: b :: d :: rest =>
    by_cases hc : c = '('
    · cases ha : isDigit a
      · simp [priorityMatchAt, specMarkerAt, hc, ha]
      · by_cases hbp : b = ')'
        · have hb : isDigit b = false := by
            cases hbq : isDigit b
            · rfl
            · exact absurd hbp (isDigit_ne_rparen hbq)
          simp only [priorityMatchAt, specMarkerAt, hc, ha, hbp, hb]
          simp only [decide_True, Bool.and_true, Bool.true_and, Bool.and_false,
            Bool.false_and, if_false, if_true]
          have hz : isDigit ')' = false := by decide
          simp [hz]
        · cases hb : isDigit b
          · simp [priorityMatchAt, specMarkerAt, hc, ha, hbp, hb]
          · by_cases hd : d = ')'
            · simp [priorityMatchAt, specMarkerAt, hc, ha, hbp, hb, hd]
            · simp [priorityMatchAt, specMarkerAt, hc, ha, hbp, hb, hd]
    · simp [priorityMatchAt, specMarkerAt, hc]

theorem prioritySearch_eq (cs : Str) : prioritySearch cs = specFirstPriority cs := by
  induction cs with
  | nil => rfl
  | cons c cs ih =>
    simp only [prioritySearch, specFirstPriority, priorityMatchAt_eq]
    cases h : specMarkerAt (c :: cs) with
    | none => simpa using ih
    | some n => rfl

theorem priorityVal_eq_spec (note : Str) :
    priorityVal note = (specFirstPriority note).getD 50 := by
  unfold priorityVal
  rw [prioritySearch_eq]
  cases specFirstPriority note <;> rfl

theorem dval_bounds (c : Char) (h : isDigit c = true) : 0 ≤ dval c ∧ dval c ≤ 9 := by
  simp only [isDigit, Bool.and_eq_true, decide_eq_true_eq] at h
  unfold dval
  omega

theorem priorityMatchAt_bounds (cs : Str) (n : Int) (h : priorityMatchAt cs = some n) :
    0 ≤ n ∧ n ≤ 99 := by
  match cs with
  | [] => simp [priorityMatchAt] at h
  | [c] => simp [priorityMatchAt] at h
  | [c, a] => simp [priorityMatchAt] at h
  | [c, a, b] =>
    simp only [priorityMatchAt] at h
    split_ifs at h with h1
    simp only [Bool.and_eq_true] at h1
    obtain ⟨hda1, hda2⟩ := dval_bounds a h1.1.2
    injection h with h
    omega
  | c :: a :: b :: d :: rest =>
    simp only [priorityMatchAt] at h
    split_ifs at h with h1 h2 h3
    · simp only [Bool.and_eq_true] at h2
      obtain ⟨hda1, hda2⟩ := dval_bounds a h2.1.1
      obtain ⟨hdb1, hdb2⟩ := dval_bounds b h2.1.2
      injection h with h
      omega
    · simp only [Bool.and_eq_true] at h3
      obtain ⟨hda1, hda2⟩ := dval_bounds a h3.1
      injection h with h
      omega

theorem prioritySearch_bounds (cs : Str) (n : Int) (h : prioritySearch cs = some n) :
    0 ≤ n ∧ n ≤ 99 := by
  induction cs with
  | nil => simp [prioritySearch] at h
  | cons c cs ih =>
    simp only [prioritySearch] at h
    cases hm : priorityMatchAt (c :: cs) with
    | some m =>
      rw [hm] at h
      injection h with h
      exact h ▸ priorityMatchAt_bounds (c :: cs) m hm
    | none =>
      rw [hm] at h
      exact ih h

theorem priorityVal_bounds (note : Str) : 0 ≤ priorityVal note ∧ priorityVal note ≤ 99 := by
  unfold priorityVal
  cases h : prioritySearch note with
  | none => norm_num
  | some n => exact prioritySearch_bounds note n h

theorem findingsOfMatch_mem {file : Str} {num : Nat} {gd : List (Str × Option Str)}
    {f : Finding} (h : f ∈ findingsOfMatch file num gd) :
    f.file = file ∧ f.line = num ∧ f.priority = priorityVal f.note
      ∧ f.patt ∈ gd.map Prod.fst := by
  unfold findingsOfMatch at h
  rcases List.mem_filterMap.mp h with ⟨pn, hpn, hemit⟩
  split_ifs at hemit
  rcases Option.map_eq_some'.mp hemit with ⟨note, hpn2, rfl⟩
  exact ⟨rfl, rfl, rfl, List.mem_map.mpr ⟨pn, hpn, rfl⟩⟩

theorem extractFile_mem {file : Str} {matcher : LineMatcher} {lines : List Str}
    {f : Finding} (h : f ∈ extractFile file matcher lines) :
    f.file = file ∧ f.priority = priorityVal f.note := by
  unfold extractFile at h
  rcases List.mem_flatMap.mp h with ⟨nl, _, hline⟩
  unfold findingsOfLine at hline
  rcases List.mem_flatMap.mp hline with ⟨gd, _, hmatch⟩
  have := findingsOfMatch_mem hmatch
  exact ⟨this.1, this.2.2.1⟩

theorem extract_mem (overlay : List (Str × List Str))
    (disk : Str → Except ScanErr (List Str)) (matcher : LineMatcher) :
    ∀ (fs : List Str) (f : Finding), f ∈ (Engine.extract overlay disk matcher fs).1 →
      (∃ q, q ∈ fs ∧ f.file = q ∧ ∃ lines, getLines overlay disk q = Except.ok lines)
        ∧ f.priority = priorityVal f.note := by
  intro fs
  induction fs with
  | nil => intro f hf; simp [Engine.extract] at hf
  | cons p rest ih =>
    intro f hf
    simp only [Engine.extract] at hf
    rcases List.mem_append.mp hf with hhere | htail
    · cases hg : getLines overlay disk p with
      | ok lines =>
        rw [hg] at hhere
        have := extractFile_mem hhere
        exact ⟨⟨p, List.mem_cons_self _ _, this.1, lines, hg⟩, this.2⟩
      | error e =>
        rw [hg] at hhere
        simp at hhere
    · rcases ih f htail with ⟨⟨q, hq, hfile, hok⟩, hprio⟩
      exact ⟨⟨q, List.mem_cons_of_mem _ hq, hfile, hok⟩, hprio⟩

theorem extract_count (overlay : List (Str × List Str))
    (disk : Str → Except ScanErr (List Str)) (matcher : LineMatcher) :
    ∀ fs, (Engine.extract overlay disk matcher fs).2 = fs.length := by
  intro fs
  induction fs with
  | nil => rfl
  | cons p rest ih => simp [Engine.extract, ih]

theorem extractLazy_count (overlay : List (Str × List Str))
    (disk : Str → Except ScanErr (List (Except ScanErr Str))) (matcher : LineMatcher) :
    ∀ fs, (extractLazy overlay disk matcher fs).2 = fs.length := by
  intro fs
  induction fs with
  | nil => rfl
  | cons p rest ih => simp [extractLazy, ih]

/-- Example line matcher: one tag pattern named `TODO` capturing the note
`x` on the line `TODO: x`. -/
def exMatcher : LineMatcher :=
  fun line => if line = str "TODO: x" then [[(str "TODO", some (str "x"))]] else []

/-- Example lazy disk: every path opens successfully and yields the line
`TODO: x`; on path `b` a decode error follows on the second line. -/
def exDiskLazy : Str → Except ScanErr (List (Except ScanErr Str)) :=
  fun p =>
    if p = str "b" then
      Except.ok [Except.ok (str "TODO: x"), Except.error ScanErr.decodeError]
    else Except.ok [Except.ok (str "TODO: x")]

/-- Example plugin-variant disk: path `b` fails to open, every other path
reads the single line `TODO: x`. -/
def exDisk : Str → Except ScanErr (List Str) :=
  fun p => if p = str "b" then Except.error ScanErr.ioError else Except.ok [str "TODO: x"]

/-- C4, counterexample: in the top-level variant src/TodoReview.py the
opened file is decoded lazily inside the `try` block, so on a 3-file scan
where file `b` hits a DecodeError on its SECOND line, the finding already
yielded from `b`'s first line stays in the results — the failing path is
not absent from the result list as the claim requires (the scanned-file
counter does reach 3). -/
theorem c4_counterexample :
    (extractLazy [] exDiskLazy exMatcher [str "a", str "b", str "c"]).1
        = [Finding.mk (str "a") (str "TODO") (str "x") 1 50,
           Finding.mk (str "b") (str "TODO") (str "x") 1 50,
           Finding.mk (str "c") (str "TODO") (str "x") 1 50]
      ∧ (extractLazy [] exDiskLazy exMatcher [str "a", str "b", str "c"]).2 = 3 := by
  constructor
  · decide
  · decide

/-- C4 (amended): a path whose content resolution fails is skipped silently
and the scanned-file counter still counts it — in the plugin variants, which
call `readlines()` before extracting, NO finding from the failing path
appears in the results and the counter equals the number of enumerated
paths; in the top-level variant, which decodes the file lazily while
yielding, findings from lines before a mid-file decode error are retained,
though the counter still increments once per path. -/
theorem c4_skipped_paths (overlay : List (Str × List Str))
    (disk : Str → Except ScanErr (List Str)) (matcher : LineMatcher)
    (files : List Str) (p : Str)
    (hp : ∃ err, getLines overlay disk p = Except.error err) :
    (∀ f ∈ (Engine.extract overlay disk matcher files).1, f.file ≠ p)
      ∧ (Engine.extract overlay disk matcher files).2 = files.length := by
  obtain ⟨err, herr⟩ := hp
  refine ⟨?_, extract_count overlay disk matcher files⟩
  intro f hf heq
  rcases (extract_mem overlay disk matcher files f hf).1 with ⟨q, hq, hfile, lines, hok⟩
  rw [hfile] at heq
  rw [heq, herr] at hok
  exact absurd hok (by simp)

/-- C4, witness: a 3-file scan by the plugin-variant extractor where `b` is
unreadable completes with no finding from `b` and a scanned-file count of 3. -/
theorem c4_witness :
    ((Engine.extract [] exDisk exMatcher [str "a", str "b", str "c"]).1.all
        (fun f => !(f.file == str "b")) = true)
      ∧ (Engine.extract [] exDisk exMatcher [str "a", str "b", str "c"]).2 = 3 := by
  have h := c4_skipped_paths [] exDisk exMatcher [str "a", str "b", str "c"] (str "b")
    ⟨ScanErr.ioError, by rfl⟩
  refine ⟨?_, h.2⟩
  rw [List.all_eq_true]
  intro f hf
  simpa using h.1 f hf

/-- Example line matcher whose captured note contains the marker `(7)`. -/
def exMatcherP : LineMatcher :=
  fun line => if line = str "TODO" then [[(str "TODO", some (str "go (7) now"))]] else []

/-- Example disk where every path reads the single line `TODO`. -/
def exDiskP : Str → Except ScanErr (List Str) :=
  fun _ => Except.ok [str "TODO"]

/-- C6: every finding emitted by the extractor carries as priority the
integer parsed from the FIRST parenthesized 1-2 digit marker found anywhere
in its note text, and 50 when the note contains no such marker (the
spec-side first-marker search is a separate definition compared against the
embedded regex search). -/
theorem c6_priority_from_first_marker (overlay : List (Str × List Str))
    (disk : Str → Except ScanErr (List Str)) (matcher : LineMatcher)
    (files : List Str) (f : Finding)
    (hf : f ∈ (Engine.extract overlay disk matcher files).1) :
    f.priority = (specFirstPriority f.note).getD 50 := by
  have h := (extract_mem overlay disk matcher files f hf).2
  rw [h, priorityVal_eq_spec]

/-- C6, witness: the finding extracted from note `go (7) now` has
priority 7, the value of its first embedded marker. -/
theorem c6_witness :
    (Finding.mk (str "a") (str "TODO") (str "go (7) now") 1 7).priority
      = (specFirstPriority (Finding.mk (str "a") (str "TODO") (str "go (7) now") 1 7).note).getD 50 :=
  c6_priority_from_first_marker [] exDiskP exMatcherP [str "a"] _ (by decide)

/-- C8: content resolution for a path present in the open-buffer overlay
returns the overlay's lines verbatim, is entirely independent of the disk
(the disk function is never consulted, so a different or missing file on
disk is irrelevant), and the extractor for that path works on exactly the
overlay lines. -/
theorem c8_overlay_precedence (overlay : List (Str × List Str))
    (disk : Str → Except ScanErr (List Str)) (p : Str) (ls : List Str)
    (h : List.lookup p overlay = some ls) :
    getLines overlay disk p = Except.ok ls
      ∧ (∀ disk2, getLines overlay disk p = getLines overlay disk2 p)
      ∧ ∀ matcher, Engine.extract overlay disk matcher [p] = (extractFile p matcher ls, 1) := by
  have hg : getLines overlay disk p = Except.ok ls := by
    unfold getLines
    rw [h]
  refine ⟨hg, fun disk2 => ?_, fun matcher => ?_⟩
  · unfold getLines
    rw [h]
  · simp [Engine.extract, hg]

/-- Example open-buffer overlay holding live content for path `o`. -/
def exOverlay : List (Str × List Str) := [(str "o", [str "TODO: x"])]

/-- Example disk on which every path fails to open (no file exists). -/
def exDiskErr : Str → Except ScanErr (List Str) :=
  fun _ => Except.error ScanErr.ioError

/-- Example disk on which every path holds DIFFERENT content than the
overlay. -/
def exDiskOther : Str → Except ScanErr (List Str) :=
  fun _ => Except.ok [str "other"]

/-- C8, witness: for the overlaid path `o`, resolution returns the buffer
lines even though no file exists on disk, gives the same answer when the
disk holds a different file, and extraction consumes the overlay lines. -/
theorem c8_witness :
    getLines exOverlay exDiskErr (str "o") = Except.ok [str "TODO: x"]
      ∧ getLines exOverlay exDiskErr (str "o") = getLines exOverlay exDiskOther (str "o")
      ∧ Engine.extract exOverlay exDiskErr exMatcher [str "o"]
          = (extractFile (str "o") exMatcher [str "TODO: x"], 1) := by
  have h := c8_overlay_precedence exOverlay exDiskErr (str "o") [str "TODO: x"] (by decide)
  exact ⟨h.1, h.2.1 exDiskOther, h.2.2 exMatcher⟩

/-- C10: every finding emitted by the extractor has a priority between 0
and 99 inclusive: a parsed marker has one or two digits (hence a value in
0..99) and the default is 50. -/
theorem c10_priority_range (overlay : List (Str × List Str))
    (disk : Str → Except ScanErr (List Str)) (matcher : LineMatcher)
    (files : List Str) (f : Finding)
    (hf : f ∈ (Engine.extract overlay disk matcher files).1) :
    0 ≤ f.priority ∧ f.priority ≤ 99 := by
  have h := (extract_mem overlay disk matcher files f hf).2
  rw [h]
  exact priorityVal_bounds f.note

/-- C10, witness: the bounds instantiated at the finding extracted from the
note `go (7) now`. -/
theorem c10_witness :
    0 ≤ (Finding.mk (str "a") (str "TODO") (str "go (7) now") 1 7).priority
      ∧ (Finding.mk (str "a") (str "TODO") (str "go (7) now") 1 7).priority ≤ 99 :=
  c10_priority_range [] exDiskP exMatcherP [str "a"] _ (by decide)

theorem findingsOfMatch_cons_none (file : Str) (num : Nat) (q : Str)
    (gd : List (Str × Option Str)) :
    findingsOfMatch file num ((q, none) :: gd) = findingsOfMatch file num gd := by
  simp [findingsOfMatch, List.filterMap_cons, pyFalsy]

theorem findingsOfMatch_cons_some (file : Str) (num : Nat) (q s : Str)
    (gd : List (Str × Option Str)) :
    findingsOfMatch file num ((q, some s) :: gd)
      = Finding.mk file q s num (priorityVal s) :: findingsOfMatch file num gd := by
  simp only [findingsOfMatch, List.filterMap_cons]
  by_cases hs : s = []
  · subst hs
    simp [pyFalsy]
  · have he : s.isEmpty = false := by
      cases s with
      | nil => exact absurd rfl hs
      | cons c cs => rfl
    simp [pyFalsy, he]

theorem findingsOfMatch_countP_zero (file : Str) (num : Nat) (patt : Str)
    (gd : List (Str × Option Str)) (h : patt ∉ gd.map Prod.fst) :
    (findingsOfMatch file num gd).countP (fun f => f.patt == patt) = 0 := by
  rw [List.countP_eq_zero]
  intro f hf
  have hp := (findingsOfMatch_mem hf).2.2.2
  simp only [beq_iff_eq]
  intro heq
  exact h (heq ▸ hp)

/-- C9: within one match of the merged tag pattern, a named group yields a
finding exactly when it participated in the match: the guard
`if not note and note != "": continue` skips precisely the groups whose
captured value is `None`, so a group that captured the empty string yields
one finding with an empty note, a non-participating group yields none, and
each participating group yields exactly one finding carrying the group name
as tag and the captured text as note. -/
theorem c9_group_participation (file : Str) (num : Nat)
    (gd : List (Str × Option Str)) (hnd : (gd.map Prod.fst).Nodup)
    (patt : Str) (note : Option Str) (hmem : (patt, note) ∈ gd) :
    ((findingsOfMatch file num gd).countP (fun f => f.patt == patt)
        = if note = none then 0 else 1)
      ∧ ∀ n, note = some n →
          Finding.mk file patt n num (priorityVal n) ∈ findingsOfMatch file num gd := by
  induction gd with
  | nil => simp at hmem
  | cons pn gd ih =>
    obtain ⟨q, m⟩ := pn
    simp only [List.map_cons, List.nodup_cons] at hnd
    rcases List.mem_cons.mp hmem with heq | hmem'
    · have h1 : patt = q := congrArg Prod.fst heq
      have h2 : note = m := congrArg Prod.snd heq
      subst h1
      subst h2
      cases note with
      | none =>
        rw [findingsOfMatch_cons_none]
        refine ⟨?_, ?_⟩
        · rw [findingsOfMatch_countP_zero file num patt gd hnd.1]
          simp
        · intro n hn
          exact absurd hn (by simp)
      | some s =>
        rw [findingsOfMatch_cons_some]
        refine ⟨?_, ?_⟩
        · rw [List.countP_cons]
          rw [findingsOfMatch_countP_zero file num patt gd hnd.1]
          simp
        · intro n hn
          injection hn with hn
          subst hn
          exact List.mem_cons_self _ _
    · have hq : q ≠ patt := by
        intro heq
        apply hnd.1
        rw [heq]
        exact List.mem_map.mpr ⟨(patt, note), hmem', rfl⟩
      have hrec := ih hnd.2 hmem'
      cases m with
      | none =>
        rw [findingsOfMatch_cons_none]
        exact hrec
      | some s =>
        rw [findingsOfMatch_cons_some]
        refine ⟨?_, ?_⟩
        · rw [List.countP_cons]
          have : ((Finding.mk file q s num (priorityVal s)).patt == patt) = false := by
            simp [hq]
          rw [hrec.1]
          simp [this]
        · intro n hn
          exact List.mem_cons_of_mem _ (hrec.2 n hn)

/-- Example groupdict of one match: tag `T` participated with an EMPTY
captured note, tag `F` did not participate. -/
def exGd : List (Str × Option Str) := [(str "T", some []), (str "F", none)]

/-- C9, witness: in the example match, the group `T` (which captured the
empty string) yields exactly one finding, with an empty note. -/
theorem c9_witness :
    (findingsOfMatch (str "f") 1 exGd).countP (fun f => f.patt == str "T") = 1
      ∧ Finding.mk (str "f") (str "T") [] 1 (priorityVal []) ∈ findingsOfMatch (str "f") 1 exGd := by
  have h := c9_group_participation (str "f") 1 exGd (by decide) (str "T") (some [])
    (by simp [exGd])
  refine ⟨?_, h.2 [] rfl⟩
  have h1 := h.1
  simpa using h1

/-- A Python value stored in the `patterns_weight` setting: a number or a
string (the two shapes the setting admits). -/
inductive PyVal : Type where
  | int (n : Int) : PyVal
  | str (s : Str) : PyVal
deriving DecidableEq

/-- Python `str(...)` of a weight value, as applied to the sort key. -/
def pyStr : PyVal → Str
  | PyVal.int n => (toString n).data
  | PyVal.str s => s

/-- Python `str.upper()` restricted to ASCII letters (tags are ASCII). -/
def asciiUpperChar (c : Char) : Char :=
  if 97 ≤ c.toNat ∧ c.toNat ≤ 122 then Char.ofNat (c.toNat - 32) else c

/-- `m["patt"].upper()`. -/
def asciiUpper (s : Str) : Str := s.map asciiUpperChar

/-- Python string comparison: lexicographic by code point, a proper prefix
sorting first. -/
def pyStrLt : Str → Str → Bool
  | [], [] => false
  | [], _ :: _ => true
  | _ :: _, [] => false
  | a :: as, b :: bs =>
    if a.toNat < b.toNat then true
    else if b.toNat < a.toNat then false
    else pyStrLt as bs

/-- Python comparison of the sort key tuple `(str(weight), priority)`:
lexicographic on the pair. -/
def pyKeyLt (a b : Str × Int) : Bool :=
  pyStrLt a.1 b.1 || (a.1 == b.1 && decide (a.2 < b.2))

/-- Stable insertion into a sorted list: the new element goes after every
element it is not strictly below (so among equal keys the earlier element
stays first, as Python's stable `sorted` guarantees). -/
def insortBy {α : Type} (lt : α → α → Bool) (x : α) : List α → List α
  | [] => [x]
  | y :: ys => if lt x y then x :: y :: ys else y :: insortBy lt x ys

/-- Python `sorted(results, key=...)`, modelled as a stable insertion sort
under the strict key comparison. -/
def pySorted {α : Type} (lt : α → α → Bool) (l : List α) : List α :=
  l.foldl (fun acc x => insortBy lt x acc) []

/-- Sort key of `TodoReviewRender.sort` in the top-level variant
src/TodoReview.py: `(str(w.get(m["patt"].upper(), m["patt"])), m["priority"])`
— the fallback for a tag without configured weight is the RAW TAG itself. -/
def sortKeyTop (w : List (Str × PyVal)) (m : Finding) : Str × Int :=
  (pyStr ((List.lookup (asciiUpper m.patt) w).getD (PyVal.str m.patt)), m.priority)

/-- Sort key of `TodoReviewRenderCommand.sort` in the plugin variants:
`(str(w.get(m["patt"].upper(), "No title")), m["priority"])` — the fallback
is the fixed sentinel string `No title`. -/
def sortKeyPlugin (w : List (Str × PyVal)) (m : Finding) : Str × Int :=
  (pyStr ((List.lookup (asciiUpper m.patt) w).getD (PyVal.str (str "No title"))), m.priority)

/-- The sorting step of the top-level `TodoReviewRender.sort` (the
`itertools.groupby` that follows only groups the already-sorted sequence;
the sorted order is what the claim is about). -/
def sortResultsTop (w : List (Str × PyVal)) (results : List Finding) : List Finding :=
  pySorted (fun a b => pyKeyLt (sortKeyTop w a) (sortKeyTop w b)) results

/-- The sorting step of the plugin variants' `sort`. -/
def sortResultsPlugin (w : List (Str × PyVal)) (results : List Finding) : List Finding :=
  pySorted (fun a b => pyKeyLt (sortKeyPlugin w a) (sortKeyPlugin w b)) results

theorem insortBy_perm {α : Type} (lt : α → α → Bool) (x : α) (l : List α) :
    (insortBy lt x l).Perm (x :: l) := by
  induction l with
  | nil => exact List.Perm.refl _
  | cons y ys ih =>
    unfold insortBy
    split_ifs
    · exact List.Perm.refl _
    · exact (List.Perm.cons y ih).trans (List.Perm.swap x y ys)

theorem pySorted_perm {α : Type} (lt : α → α → Bool) (l : List α) :
    (pySorted lt l).Perm l := by
  have key : ∀ (l : List α) (acc : List α),
      (l.foldl (fun acc x => insortBy lt x acc) acc).Perm (l ++ acc) := by
    intro l
    induction l with
    | nil => intro acc; simp
    | cons x l ih =>
      intro acc
      have h1 := ih (insortBy lt x acc)
      have h2 : (l ++ insortBy lt x acc).Perm (l ++ x :: acc) :=
        List.Perm.append_left l (insortBy_perm lt x acc)
      have h3 : (l ++ x :: acc).Perm (x :: (l ++ acc)) := List.perm_middle
      have h4 : (x :: (l ++ acc)).Perm ((x :: l) ++ acc) := by simp
      exact ((h1.trans h2).trans h3).trans h4
  have := key l []
  simpa using this

/-- Example finding with the unweighted lowercase tag `a`. -/
def exFindLowerA : Finding := Finding.mk (str "f") (str "a") [] 1 1

/-- Example finding with the weighted tag `B`. -/
def exFindUpperB : Finding := Finding.mk (str "f") (str "B") [] 1 1

/-- C5, counterexample: with weight map `{B: "Z"}`, the top-level variant
uses the RAW TAG `a` as fallback key for the unweighted tag (sorting `B`
with key `Z` before `a`, since `Z` precedes `a` in code-point order), while
the sentinel fallback `No title` asserted by the claim sorts `a` first — so
the fallback is not an explicit sentinel in the top-level variant. -/
theorem c5_counterexample :
    sortResultsTop [(str "B", PyVal.str (str "Z"))] [exFindLowerA, exFindUpperB]
        = [exFindUpperB, exFindLowerA]
      ∧ sortResultsPlugin [(str "B", PyVal.str (str "Z"))] [exFindLowerA, exFindUpperB]
        = [exFindLowerA, exFindUpperB] := by
  constructor
  · decide
  · decide

/-- C5 (amended): `sort` orders findings by the string form of
`weightMap.get(tag.upper(), fallback)` and then by priority ascending, where
the fallback is the sentinel string `No title` in the plugin variants but
the RAW TAG in the top-level variant; both sorts permute the findings, and
on the spec's example (all tags weighted, so the fallback is irrelevant)
both orders agree with the claimed `[A/1, A/3, B/1]`. -/
theorem c5_sort_order :
    (∀ w results, (sortResultsPlugin w results).Perm results
        ∧ (sortResultsTop w results).Perm results)
      ∧ sortResultsPlugin [(str "A", PyVal.int 1), (str "B", PyVal.int 2)]
          [Finding.mk (str "f") (str "A") [] 1 3,
           Finding.mk (str "f") (str "A") [] 2 1,
           Finding.mk (str "f") (str "B") [] 3 1]
        = [Finding.mk (str "f") (str "A") [] 2 1,
           Finding.mk (str "f") (str "A") [] 1 3,
           Finding.mk (str "f") (str "B") [] 3 1]
      ∧ sortResultsTop [(str "A", PyVal.int 1), (str "B", PyVal.int 2)]
          [Finding.mk (str "f") (str "A") [] 1 3,
           Finding.mk (str "f") (str "A") [] 2 1,
           Finding.mk (str "f") (str "B") [] 3 1]
        = [Finding.mk (str "f") (str "A") [] 2 1,
           Finding.mk (str "f") (str "A") [] 1 3,
           Finding.mk (str "f") (str "B") [] 3 1] := by
  refine ⟨fun w results => ⟨pySorted_perm _ results, pySorted_perm _ results⟩, ?_, ?_⟩
  · decide
  · decide
